import Mathlib

/-!
Verification of the web-graph server's two core subsystems:
the puzzle seed cache (`hashcacher.py`, `server.py` seed pools) and the
graph builder (`server.py` / `demo_server.py` `build_graph`).

Machine words are modelled as `Nat` with explicit reduction modulo `2^32`.
The MD5 digest used by `hashlib.md5(...).hexdigest()` is implemented
concretely below (RFC 1321), so that the iterated-hash functions of the
repository are fully executable.  All strings occurring in the system are
ASCII, so UTF-8 encoding coincides with the codepoint bytes.
-/

set_option maxRecDepth 100000
set_option maxHeartbeats 1000000

namespace WebGraph

/-- 2^32, the modulus for the 32-bit arithmetic of MD5. -/
def M32 : Nat := 4294967296

/-- The 64 MD5 round constants, floor(2^32 * |sin(i+1)|) (RFC 1321). -/
def md5K : List Nat :=
  [0xd76aa478, 0xe8c7b756, 0x242070db, 0xc1bdceee,
   0xf57c0faf, 0x4787c62a, 0xa8304613, 0xfd469501,
   0x698098d8, 0x8b44f7af, 0xffff5bb1, 0x895cd7be,
   0x6b901122, 0xfd987193, 0xa679438e, 0x49b40821,
   0xf61e2562, 0xc040b340, 0x265e5a51, 0xe9b6c7aa,
   0xd62f105d, 0x02441453, 0xd8a1e681, 0xe7d3fbc8,
   0x21e1cde6, 0xc33707d6, 0xf4d50d87, 0x455a14ed,
   0xa9e3e905, 0xfcefa3f8, 0x676f02d9, 0x8d2a4c8a,
   0xfffa3942, 0x8771f681, 0x6d9d6122, 0xfde5380c,
   0xa4beea44, 0x4bdecfa9, 0xf6bb4b60, 0xbebfbc70,
   0x289b7ec6, 0xeaa127fa, 0xd4ef3085, 0x04881d05,
   0xd9d4d039, 0xe6db99e5, 0x1fa27cf8, 0xc4ac5665,
   0xf4292244, 0x432aff97, 0xab9423a7, 0xfc93a039,
   0x655b59c3, 0x8f0ccc92, 0xffeff47d, 0x85845dd1,
   0x6fa87e4f, 0xfe2ce6e0, 0xa3014314, 0x4e0811a1,
   0xf7537e82, 0xbd3af235, 0x2ad7d2bb, 0xeb86d391]

/-- The 64 MD5 per-round left-rotation amounts (RFC 1321). -/
def md5S : List Nat :=
  [7, 12, 17, 22, 7, 12, 17, 22, 7, 12, 17, 22, 7, 12, 17, 22,
   5, 9, 14, 20, 5, 9, 14, 20, 5, 9, 14, 20, 5, 9, 14, 20,
   4, 11, 16, 23, 4, 11, 16, 23, 4, 11, 16, 23, 4, 11, 16, 23,
   6, 10, 15, 21, 6, 10, 15, 21, 6, 10, 15, 21, 6, 10, 15, 21]

/-- Left-rotation of a 32-bit word (a `Nat` below `2^32`). -/
def rotl32 (x s : Nat) : Nat :=
  ((x <<< s) % M32) ||| (x >>> (32 - s))

/-- Bitwise complement within 32 bits. -/
def not32 (x : Nat) : Nat := x ^^^ (M32 - 1)

/-- One MD5 round: `m` is the 16-word message block, `i` the round index. -/
def md5Step (m : List Nat) (st : Nat × Nat × Nat × Nat) (i : Nat) :
    Nat × Nat × Nat × Nat :=
  let (a, b, c, d) := st
  let f :=
    if i < 16 then (b &&& c) ||| (not32 b &&& d)
    else if i < 32 then (d &&& b) ||| (not32 d &&& c)
    else if i < 48 then b ^^^ c ^^^ d
    else c ^^^ (b ||| not32 d)
  let g :=
    if i < 16 then i
    else if i < 32 then (5 * i + 1) % 16
    else if i < 48 then (3 * i + 5) % 16
    else (7 * i) % 16
  let f' := (f + a + md5K.getD i 0 + m.getD g 0) % M32
  (d, (b + rotl32 f' (md5S.getD i 0)) % M32, b, c)

/-- Decode a byte list into 32-bit little-endian words (four bytes each). -/
def wordsLE : List Nat → List Nat
  | b0 :: b1 :: b2 :: b3 :: rest =>
      (b0 + 256 * b1 + 65536 * b2 + 16777216 * b3) :: wordsLE rest
  | _ => []

/-- Process one 64-byte chunk, updating the four-word MD5 state. -/
def md5Chunk (st : Nat × Nat × Nat × Nat) (chunk : List Nat) :
    Nat × Nat × Nat × Nat :=
  let m := wordsLE chunk
  let (a, b, c, d) := (List.range 64).foldl (md5Step m) st
  let (a0, b0, c0, d0) := st
  ((a0 + a) % M32, (b0 + b) % M32, (c0 + c) % M32, (d0 + d) % M32)

/-- Fuel-indexed splitting of a byte list into 64-byte chunks; the fuel is
instantiated with the list length, which always suffices. -/
def chunks64Aux : Nat → List Nat → List (List Nat)
  | 0, _ => []
  | _, [] => []
  | fuel + 1, l =>
    if 64 ≤ l.length then l.take 64 :: chunks64Aux fuel (l.drop 64)
    else [l]

/-- Split a byte list into 64-byte chunks (the input length is always a
positive multiple of 64 after padding). -/
def chunks64 (l : List Nat) : List (List Nat) := chunks64Aux l.length l

/-- MD5 padding: a `0x80` byte, zeros to 56 mod 64, then the bit length as a
64-bit little-endian quantity. -/
def md5Pad (msg : List Nat) : List Nat :=
  let padZeros := (64 + 56 - (msg.length + 1) % 64) % 64
  msg ++ [128] ++ List.replicate padZeros 0 ++
    (List.range 8).map (fun i => ((8 * msg.length) >>> (8 * i)) % 256)

/-- Serialize a 32-bit word as four little-endian bytes. -/
def wordLE (w : Nat) : List Nat :=
  [w % 256, w / 256 % 256, w / 65536 % 256, w / 16777216 % 256]

/-- The 16-byte MD5 digest of a byte list. -/
def md5Bytes (msg : List Nat) : List Nat :=
  let padded := md5Pad msg
  let st := (chunks64 padded).foldl md5Chunk
    (0x67452301, 0xefcdab89, 0x98badcfe, 0x10325476)
  wordLE st.1 ++ wordLE st.2.1 ++ wordLE st.2.2.1 ++ wordLE st.2.2.2

/-- The lowercase hexadecimal alphabet, in digit order
(`string.digits + "abcdef"` in hashcacher.py lines 104 and 175). -/
def hexChars : List Char := "0123456789abcdef".data

/-- The hex character of a digit below 16. -/
def hexDigit (n : Nat) : Char := hexChars.getD n '0'

/-- Two hex characters for one byte. -/
def byteHex (b : Nat) : List Char := [hexDigit (b / 16), hexDigit (b % 16)]

/-- The bytes of an ASCII string; all strings in this system are ASCII, for
which UTF-8 encoding (used by Python's `str.encode()`) is the codepoint. -/
def strBytes (s : String) : List Nat := s.data.map Char.toNat

/-- `hashlib.md5(s.encode()).hexdigest()`: the 32-character lowercase
hexadecimal MD5 digest of a string. -/
def md5Hex (s : String) : String :=
  String.mk ((md5Bytes (strBytes s)).flatMap byteHex)

/-- Python slicing `s[:n]`: the first `n` characters of a string. -/
def strTake (n : Nat) (s : String) : String := String.mk (s.data.take n)

/-- Python indexing `s[0]`: the first character of a (nonempty) string. -/
def strFirst (s : String) : Char := s.data.headD 'A'

/-- The iteration loop shared by `HashCacher.hash_cpu_seed` and
`HashCacher.hash_core_seed` (hashcacher.py lines 107-119): each round
digests the bare current digest, `result = md5(result.encode())`. -/
def hcacherHashChain (iters : Nat) (seed : String) : String :=
  (List.range iters).foldl (fun result _ => md5Hex result) seed

/-- Embedding of `HashCacher.hash_cpu_seed` (hashcacher.py lines 107-112). -/
def hash_cpu_seed (cpu_iterations page_id_length : Nat) (seed : String) :
    String :=
  strTake page_id_length (hcacherHashChain cpu_iterations seed)

/-- Embedding of `HashCacher.hash_core_seed` (hashcacher.py lines 114-119). -/
def hash_core_seed (core_iterations : Nat) (seed : String) : Char :=
  strFirst (hcacherHashChain core_iterations seed)

/-- The iteration loop of `compute_cpu_seed_pools` and
`compute_core_seed_pools` in server.py (lines 68-70 and 100-102): round `i`
digests the index-tagged string, `result = md5(f"_".join-style tag)`, that
is `md5((result ++ "_" ++ toString i).encode())`. -/
def serverHashChain (iters : Nat) (seed : String) : String :=
  (List.range iters).foldl
    (fun result i => md5Hex (result ++ "_" ++ toString i)) seed

/-- The page id derived from a seed by `compute_cpu_seed_pools` in server.py
(line 72): the first `len` characters of the final digest. -/
def serverCpuPageId (iters len : Nat) (seed : String) : String :=
  strTake len (serverHashChain iters seed)

/-- The character derived from a seed by `compute_core_seed_pools` in
server.py (line 104): the first character of the final digest. -/
def serverCoreChar (iters : Nat) (seed : String) : Char :=
  strFirst (serverHashChain iters seed)

/-- Modelled from the spec: the hash-primitive contract of section 4.3 --
repeatedly apply the digest to the (current digest, iteration index) pair,
UTF-8 encoding the tagged string before hashing -- written as a primitive
recursion that counts the iteration index upward, to be compared with the
repository's two loop implementations. -/
def specContractChainFrom (digest : String) : Nat → Nat → String
  | _, 0 => digest
  | i, k + 1 => specContractChainFrom (md5Hex (digest ++ "_" ++ toString i)) (i + 1) k

/-- Modelled from the spec: the CPU target of a seed under the contract,
the first `len` characters of the final digest after `k` rounds. -/
def specContractCpuTarget (k len : Nat) (seed : String) : String :=
  strTake len (specContractChainFrom seed 0 k)

/-- Embedding of `HashCacher.get_cpu_seeds_for_targets` (hashcacher.py lines
264-293).  The `cpu_seeds` dict is an association list in insertion order and
the `used_seeds` set a list; the result carries the returned seeds and the
updated set.  `none` models the `ValueError` raised when a requested target
has no seed in the pool at all; when every seed of a backed target is
reserved, the first seed mapping to it is reused without reserving it. -/
def hcGetCpuSeedsForTargets (pool : List (String × String)) :
    List String → List String → Option (List String × List String)
  | [], used => some ([], used)
  | target :: rest, used =>
    if (pool.map Prod.snd).contains target then
      match pool.find? (fun p => p.2 == target && !(used.contains p.1)) with
      | some p =>
        (hcGetCpuSeedsForTargets pool rest (p.1 :: used)).map
          (fun r => (p.1 :: r.1, r.2))
      | none =>
        match pool.find? (fun p => p.2 == target) with
        | some p =>
          (hcGetCpuSeedsForTargets pool rest used).map
            (fun r => (p.1 :: r.1, r.2))
        | none => hcGetCpuSeedsForTargets pool rest used
    else
      none

/-- Embedding of `get_cpu_seeds_for_targets` in server.py (lines 116-130):
a target with no backing seed, or whose seeds are all reserved, is silently
skipped; each selected seed is added to `USED_CPU_SEEDS` before being
returned. -/
def srvGetCpuSeedsForTargets (pool : List (String × String)) :
    List String → List String → List String × List String
  | [], used => ([], used)
  | target :: rest, used =>
    if (pool.map Prod.snd).contains target then
      match pool.find? (fun p => p.2 == target && !(used.contains p.1)) with
      | some p =>
        let r := srvGetCpuSeedsForTargets pool rest (p.1 :: used)
        (p.1 :: r.1, r.2)
      | none => srvGetCpuSeedsForTargets pool rest used
    else srvGetCpuSeedsForTargets pool rest used

/-- Python `target.ljust(n, '0')`: pad on the right with '0' up to width
`n`; a string already at least that long is unchanged. -/
def ljustZero (n : Nat) (t : String) : String :=
  t ++ String.mk (List.replicate (n - t.length) '0')

/-- The inner per-character loop of `get_core_seeds_for_targets` in
server.py (lines 141-153): for each character, reserve the first pool seed
mapping to it that is not yet reserved; stop at the first character with no
available seed (`found_seed = False` then `break`), keeping the
reservations already made.  Returns the partial group, the updated set and
whether every character succeeded. -/
def srvBuildQuad (pool : List (String × Char)) :
    List Char → List String → List String × List String × Bool
  | [], used => ([], used, true)
  | c :: cs, used =>
    match pool.find? (fun p => p.2 == c && !(used.contains p.1)) with
    | some p =>
      let r := srvBuildQuad pool cs (p.1 :: used)
      (p.1 :: r.1, r.2.1, r.2.2)
    | none => ([], used, false)

/-- Embedding of `get_core_seeds_for_targets` in server.py (lines 132-158):
each target is padded to four characters with '0' and a group is emitted
only if all four characters obtained a seed. -/
def srvGetCoreSeedsForTargets (pool : List (String × Char)) :
    List String → List String → List (List String) × List String
  | [], used => ([], used)
  | target :: rest, used =>
    let padded := ljustZero 4 target
    let q := srvBuildQuad pool (strTake 4 padded).data used
    let r := srvGetCoreSeedsForTargets pool rest q.2.1
    if q.1.length == 4 then (q.1 :: r.1, r.2) else r

/-- The inner per-character loop of `HashCacher.get_core_seeds_for_targets`
(hashcacher.py lines 307-309), parametric in an oracle `choice` modelling
`random.choice` applied to the bucket of each character (first argument:
the index of the draw).  `none` models the `KeyError` of a character with
no bucket or the `IndexError` of `random.choice` on an empty bucket. -/
def hcBuildHexSeeds (buckets : List (Char × List String))
    (choice : Nat → List String → Option String) :
    List Char → Nat → Option (List String)
  | [], _ => some []
  | c :: cs, k =>
    match buckets.find? (fun b => b.1 == c) with
    | none => none
    | some b =>
      match choice k b.2 with
      | none => none
      | some s => (hcBuildHexSeeds buckets choice cs (k + 1)).map (s :: ·)

/-- Embedding of `HashCacher.get_core_seeds_for_targets` (hashcacher.py
lines 295-314), parametric in the configured id length: each target is
padded to `len` characters with '0', one seed is drawn from the bucket of
each of its first `len` characters, and the list is kept when it has `len`
seeds.  An exception anywhere aborts the whole call (`none`). -/
def hcGetCoreSeedsForTargets (buckets : List (Char × List String))
    (len : Nat) (choice : Nat → List String → Option String) :
    List String → Nat → Option (List (List String))
  | [], _ => some []
  | target :: rest, k =>
    let padded := ljustZero len target
    match hcBuildHexSeeds buckets choice (strTake len padded).data k with
    | none => none
    | some hexSeeds =>
      match hcGetCoreSeedsForTargets buckets len choice rest (k + len) with
      | none => none
      | some ls => some (if hexSeeds.length == len then hexSeeds :: ls else ls)

/-- The mutable fields of `HashCacher` holding the two seed partitions and
their iteration costs (hashcacher.py lines 29-32). -/
structure CacherState where
  cpu_seeds : List (String × String)
  core_seeds : List (Char × List String)
  cpu_iterations : Nat
  core_iterations : Nat
deriving DecidableEq

/-- The generation loop of `HashCacher.ensure_cpu_seeds` (hashcacher.py
lines 141-167): draw a seed from the stream, skip it if already a key of
the pool, otherwise record it with its hashed page id; stop when
`remaining` fresh seeds have been added.  The fuel bounds the number of
loop iterations; `none` means the loop was still running when it ran out. -/
def ensureCpuLoop (len : Nat) (stream : Nat → String) :
    Nat → Nat → Nat → CacherState → Option CacherState
  | _, _, 0, st => some st
  | 0, _, _, _ => none
  | fuel + 1, k, remaining + 1, st =>
    let seed := stream k
    if (st.cpu_seeds.map Prod.fst).contains seed then
      ensureCpuLoop len stream fuel (k + 1) (remaining + 1) st
    else
      ensureCpuLoop len stream fuel (k + 1) remaining
        { st with cpu_seeds :=
            st.cpu_seeds ++ [(seed, hash_cpu_seed st.cpu_iterations len seed)] }

/-- Embedding of `HashCacher.ensure_cpu_seeds` (hashcacher.py lines
121-171).  A cost argument differing from the stored one clears the CPU
partition and records the new cost; no cost argument resets the stored cost
to the configured default.  The core partition is never touched. -/
def ensure_cpu_seeds (len defaultCost : Nat) (stream : Nat → String)
    (fuel needed : Nat) (cost? : Option Nat) (st : CacherState) :
    Option CacherState :=
  let st' :=
    match cost? with
    | some c =>
      if c ≠ st.cpu_iterations then
        { st with cpu_seeds := [], cpu_iterations := c }
      else st
    | none => { st with cpu_iterations := defaultCost }
  if needed ≤ st'.cpu_seeds.length then some st'
  else ensureCpuLoop len stream fuel 0 (needed - st'.cpu_seeds.length) st'

/-- Embedding of `compute_cpu_seed_pools` in server.py (lines 52-82):
bounded by the attempt budget (`max_attempts`), each attempt draws a seed,
hashes it with the index-tagged chain, and records the pair if the seed is
not yet a key of the pool. -/
def compute_cpu_seed_pools (iters len : Nat) (stream : Nat → String) :
    Nat → Nat → Nat → List (String × String) → List (String × String)
  | _, 0, _, pool => pool
  | 0, _, _, pool => pool
  | budget + 1, needed + 1, k, pool =>
    let seed := stream k
    let pageId := serverCpuPageId iters len seed
    if (pool.map Prod.fst).contains seed then
      compute_cpu_seed_pools iters len stream budget (needed + 1) (k + 1) pool
    else
      compute_cpu_seed_pools iters len stream budget needed (k + 1)
        (pool ++ [(seed, pageId)])

/-- Append one target to the outgoing link list of a source page
(`GRAPH[source_id]["links"].append(...)`).  The stored `/api/...` url wraps
the target id bijectively and the traversal code strips it back off
(`link.split(sep).pop-style`), so links are modelled directly as target
ids. -/
def addLink (g : String → List String) (src tgt : String) :
    String → List String :=
  fun p => if p = src then g p ++ [tgt] else g p

/-- The tree phase of `build_graph` (server.py lines 294-310, demo_server.py
lines 133-149): while pages remain, pick a random page already in the tree
(`random.choice(pages_in_tree)`, modelled by the oracle index reduced
modulo the tree size) and link it to the next not-yet-added page. -/
def treePhase (oracle : Nat → Nat) :
    Nat → List String → List String → (String → List String) →
    List String × (String → List String)
  | _, tree, [], g => (tree, g)
  | k, tree, p :: ps, g =>
    treePhase oracle (k + 1) (tree ++ [p]) ps
      (addLink g (tree.getD (oracle k % tree.length) "") p)

/-- The tree phase run from the first page as root over an initially empty
link table. -/
def build_tree (oracle : Nat → Nat) (pages : List String) :
    List String × (String → List String) :=
  match pages with
  | [] => ([], fun _ => [])
  | root :: rest => treePhase oracle 0 [root] rest (fun _ => [])

/-- The densification phase of `build_graph` (server.py lines 312-330,
demo_server.py lines 151-167): up to `budget` attempts while fewer than
`need` edges have been added, each attempt draws a source and a target page
(both through the oracle, which subsumes the uniform and the
regular-biased target policy) and adds the edge unless it is a self-loop
or a duplicate from that source.  Returns the final link table, the number
of edges added and the number of attempts consumed. -/
def densify (pages : List String) (oracle : Nat → Nat × Nat) :
    Nat → Nat → Nat → (String → List String) →
    (String → List String) × Nat × Nat
  | _, 0, _, g => (g, 0, 0)
  | 0, _, _, g => (g, 0, 0)
  | budget + 1, need + 1, k, g =>
    let pick := oracle k
    let src := pages.getD (pick.1 % pages.length) ""
    let tgt := pages.getD (pick.2 % pages.length) ""
    if src != tgt && !((g src).contains tgt) then
      let r := densify pages oracle budget need (k + 1) (addLink g src tgt)
      (r.1, r.2.1 + 1, r.2.2 + 1)
    else
      let r := densify pages oracle budget (need + 1) (k + 1) g
      (r.1, r.2.1, r.2.2 + 1)

/-- Embedding of `build_graph` (server.py lines 279-330): the tree phase
followed by the densification phase. -/
def build_graph (oracle1 : Nat → Nat) (oracle2 : Nat → Nat × Nat)
    (need budget : Nat) (pages : List String) : String → List String :=
  (densify pages oracle2 budget need 0 (build_tree oracle1 pages).2).1

/-- The total number of stored edges: link-count bookkeeping is derived by
summation over the per-page link lists, exactly as the final loop of
`build_graph` recomputes `link_count`. -/
def edgeCount (g : String → List String) (pages : List String) : Nat :=
  (pages.map (fun p => (g p).length)).sum

/-- One hyperlink step: `q` occurs in the outgoing link list of `p`. -/
def LinkStep (g : String → List String) (p q : String) : Prop := q ∈ g p

/-- A page is reachable from the root when a chain of hyperlink steps leads
to it; the set of pages satisfying this is exactly the set a breadth-first
traversal of the outgoing link lists visits. -/
def ReachableFrom (g : String → List String) (root p : String) : Prop :=
  Relation.ReflTransGen (LinkStep g) root p

/-- The alphabet of `generate_page_ids` (server.py line 162, demo_server.py
line 61): `string.ascii_lowercase + string.digits`, 36 characters. -/
def idAlphabet : List Char := "abcdefghijklmnopqrstuvwxyz0123456789".data

/-- One sample of `random.choices(chars, k=length)`: `length` independent
draws from the 36-character alphabet, driven by a draw stream. -/
def sampleId (len : Nat) (draw : Nat → Nat) (k : Nat) : List Char :=
  (List.range len).map
    (fun j => idAlphabet.getD (draw (len * k + j) % idAlphabet.length) 'a')

/-- The sampling loop of `generate_page_ids` (server.py lines 165-167,
demo_server.py lines 64-66): while the set holds fewer than `count` ids,
sample another id and add it (the set is a duplicate-free list here).  The
fuel bounds the number of loop iterations; `none` means the loop was still
running when the fuel ran out. -/
def generatePageIdsLoop (len : Nat) (draw : Nat → Nat) (count : Nat) :
    Nat → Nat → List (List Char) → Option (List (List Char))
  | fuel, k, acc =>
    if count ≤ acc.length then some acc
    else
      match fuel with
      | 0 => none
      | fuel + 1 =>
        let pid := sampleId len draw k
        generatePageIdsLoop len draw count fuel (k + 1)
          (if acc.contains pid then acc else acc ++ [pid])

/-- Embedding of `generate_page_ids` (server.py lines 160-169, identically
in demo_server.py lines 59-68). -/
def generate_page_ids (len : Nat) (draw : Nat → Nat) (fuel count : Nat) :
    Option (List (List Char)) :=
  generatePageIdsLoop len draw count fuel 0 []

/-- Sequential composition of `get_cpu_seeds_for_targets` calls sharing the
`USED_CPU_SEEDS` set: every call sees the reservations of the calls before
it.  Concurrent calls whose check-then-mark sequences are atomic execute as
some such sequence. -/
def srvCpuTrace (pool : List (String × String)) :
    List (List String) → List String → List (List String) × List String
  | [], used => ([], used)
  | call :: calls, used =>
    let r := srvGetCpuSeedsForTargets pool call used
    let t := srvCpuTrace pool calls r.2
    (r.1 :: t.1, t.2)

/-- Sequential composition of `get_core_seeds_for_targets` calls sharing
the `USED_CORE_SEEDS` set. -/
def srvCoreTrace (pool : List (String × Char)) :
    List (List String) → List String →
    List (List (List String)) × List String
  | [], used => ([], used)
  | call :: calls, used =>
    let r := srvGetCoreSeedsForTargets pool call used
    let t := srvCoreTrace pool calls r.2
    (r.1 :: t.1, t.2)

/-- A well-formed page id of the CPU seed pool: exactly `len` characters,
all from the lowercase hexadecimal alphabet. -/
def HexId (len : Nat) (t : String) : Prop :=
  t.length = len ∧ ∀ ch ∈ t.data, ch ∈ hexChars

instance (len : Nat) (t : String) : Decidable (HexId len t) := by
  unfold HexId; infer_instance

/-- A strict reservation step: relative to the incoming reservation set the
returned seeds are mutually distinct and fresh, and both they and the
incoming set are contained in the outgoing set. -/
def StrictStep (out used used' : List String) : Prop :=
  out.Nodup ∧ (∀ s ∈ out, s ∉ used) ∧ (∀ s ∈ out, s ∈ used') ∧
    ∀ s ∈ used, s ∈ used'

/-- All words of a given length over an alphabet. -/
def wordsOver (alph : List Char) : Nat → List (List Char)
  | 0 => [[]]
  | n + 1 => alph.flatMap (fun c => (wordsOver alph n).map (c :: ·))

theorem md5Hex_empty : md5Hex "" = "d41d8cd98f00b204e9800998ecf8427e" := by
  decide

theorem md5Hex_abc : md5Hex "abc" = "900150983cd24fb0d6963f7d28e17f72" := by
  decide

theorem hash_cpu_seed_example : hash_cpu_seed 1 4 "abc123" = "e99a" := by
  decide

theorem serverCpuPageId_example : serverCpuPageId 1 4 "abc123" = "8550" := by
  decide

theorem serverHashChain_example :
    serverHashChain 2 "abc123" = "c53c0f5f5420bde055a93e539b4a6e7d" := by
  decide

theorem serverHashChain_eq_contract_aux (k : Nat) :
    ∀ (i : Nat) (d : String),
      (List.range' i k).foldl
        (fun result j => md5Hex (result ++ "_" ++ toString j)) d =
      specContractChainFrom d i k := by
  induction k with
  | zero => intro i d; rfl
  | succ k ih =>
    intro i d
    rw [List.range'_succ, List.foldl_cons]
    exact ih (i + 1) (md5Hex (d ++ "_" ++ toString i))

/-- C2 counterexample: the two iterated-hash implementations disagree
already at one iteration on the seed "abc123" with id length 4, because
`HashCacher.hash_cpu_seed` digests the bare digest while the seed-pool loop
of server.py digests the index-tagged string. -/
theorem c2_hashcacher_server_disagree :
    hash_cpu_seed 1 4 "abc123" ≠ serverCpuPageId 1 4 "abc123" := by
  decide

/-- C2 (amended): server.py's seed-pool hash loop realizes the spec's
hash-primitive contract (digesting the UTF-8 encoding of the current digest
tagged with the iteration index each round), and the two repository
implementations coincide only trivially, at zero iterations; by
`c2_hashcacher_server_disagree` they differ in general, since HashCacher's
`hash_cpu_seed`/`hash_core_seed` digest the bare current digest. -/
theorem c2_server_loop_realizes_contract (k len : Nat) (seed : String) :
    serverCpuPageId k len seed = specContractCpuTarget k len seed ∧
    hash_cpu_seed 0 len seed = serverCpuPageId 0 len seed := by
  constructor
  · unfold serverCpuPageId specContractCpuTarget serverHashChain
    rw [List.range_eq_range', serverHashChain_eq_contract_aux]
  · rfl

theorem hcGet_cons_found (pool : List (String × String)) (t : String)
    (ts used : List String) (p : String × String)
    (hc : (pool.map Prod.snd).contains t = true)
    (hf : pool.find? (fun p => p.2 == t && !(used.contains p.1)) = some p) :
    hcGetCpuSeedsForTargets pool (t :: ts) used =
      (hcGetCpuSeedsForTargets pool ts (p.1 :: used)).map
        (fun r => (p.1 :: r.1, r.2)) := by
  rw [hcGetCpuSeedsForTargets, hc, hf]; rfl

theorem hcGet_cons_fallback (pool : List (String × String)) (t : String)
    (ts used : List String) (p : String × String)
    (hc : (pool.map Prod.snd).contains t = true)
    (hf : pool.find? (fun p => p.2 == t && !(used.contains p.1)) = none)
    (hf2 : pool.find? (fun p => p.2 == t) = some p) :
    hcGetCpuSeedsForTargets pool (t :: ts) used =
      (hcGetCpuSeedsForTargets pool ts used).map
        (fun r => (p.1 :: r.1, r.2)) := by
  rw [hcGetCpuSeedsForTargets, hc, hf, hf2]; rfl

theorem srvGet_cons_found (pool : List (String × String)) (t : String)
    (ts used : List String) (p : String × String)
    (hc : (pool.map Prod.snd).contains t = true)
    (hf : pool.find? (fun p => p.2 == t && !(used.contains p.1)) = some p) :
    srvGetCpuSeedsForTargets pool (t :: ts) used =
      ((srvGetCpuSeedsForTargets pool ts (p.1 :: used)).1.cons p.1,
        (srvGetCpuSeedsForTargets pool ts (p.1 :: used)).2) := by
  rw [srvGetCpuSeedsForTargets, hc, hf]; rfl

theorem srvGet_cons_exhausted (pool : List (String × String)) (t : String)
    (ts used : List String)
    (hc : (pool.map Prod.snd).contains t = true)
    (hf : pool.find? (fun p => p.2 == t && !(used.contains p.1)) = none) :
    srvGetCpuSeedsForTargets pool (t :: ts) used =
      srvGetCpuSeedsForTargets pool ts used := by
  rw [srvGetCpuSeedsForTargets, hc, hf]; rfl

theorem srvGet_cons_missing (pool : List (String × String)) (t : String)
    (ts used : List String)
    (hc : (pool.map Prod.snd).contains t = false) :
    srvGetCpuSeedsForTargets pool (t :: ts) used =
      srvGetCpuSeedsForTargets pool ts used := by
  rw [srvGetCpuSeedsForTargets, hc]
  rfl

/-- C1: for targets that all occur as values of a CPU seed pool whose
records map each seed to its `hash_cpu_seed` image (the invariant
`ensure_cpu_seeds` establishes), `HashCacher.get_cpu_seeds_for_targets`
returns one seed per target, and hashing each returned seed for the
configured iteration count and truncating to the configured id length
yields exactly the target the seed was returned for. -/
theorem c1_hashcacher_cpu_roundtrip (iters len : Nat)
    (pool : List (String × String)) (targets used : List String)
    (hpool : ∀ p ∈ pool, p.2 = hash_cpu_seed iters len p.1)
    (hcov : ∀ t ∈ targets, t ∈ pool.map Prod.snd) :
    ∃ seeds used',
      hcGetCpuSeedsForTargets pool targets used = some (seeds, used') ∧
      List.Forall₂ (fun s t => hash_cpu_seed iters len s = t) seeds targets := by
  induction targets generalizing used with
  | nil => exact ⟨[], used, rfl, List.Forall₂.nil⟩
  | cons t ts ih =>
    have hmem : t ∈ pool.map Prod.snd := hcov t (by simp)
    have hcov' : ∀ x ∈ ts, x ∈ pool.map Prod.snd := fun x hx =>
      hcov x (by simp [hx])
    have hcont : (pool.map Prod.snd).contains t = true := by simpa using hmem
    cases hfind : pool.find? (fun p => p.2 == t && !(used.contains p.1)) with
    | some p =>
      have hp_mem : p ∈ pool := List.mem_of_find?_eq_some hfind
      have hp_pred := List.find?_some hfind
      have hpt : p.2 = t := by
        simp only [Bool.and_eq_true, beq_iff_eq] at hp_pred
        exact hp_pred.1
      obtain ⟨seeds, used', hrun, hrel⟩ := ih (p.1 :: used) hcov'
      refine ⟨p.1 :: seeds, used', ?_, ?_⟩
      · rw [hcGet_cons_found pool t ts used p hcont hfind, hrun]; rfl
      · exact List.Forall₂.cons ((hpool p hp_mem).symm.trans hpt) hrel
    | none =>
      obtain ⟨p0, hp0m, hp0t⟩ := List.mem_map.mp hmem
      cases hfind2 : pool.find? (fun p => p.2 == t) with
      | none =>
        exfalso
        have := List.find?_eq_none.mp hfind2 p0 hp0m
        simp [hp0t] at this
      | some p =>
        have hp_mem : p ∈ pool := List.mem_of_find?_eq_some hfind2
        have hp_pred := List.find?_some hfind2
        have hpt : p.2 = t := by
          simp only [beq_iff_eq] at hp_pred
          exact hp_pred
        obtain ⟨seeds, used', hrun, hrel⟩ := ih used hcov'
        refine ⟨p.1 :: seeds, used', ?_, ?_⟩
        · rw [hcGet_cons_fallback pool t ts used p hcont hfind hfind2, hrun]
          rfl
        · exact List.Forall₂.cons ((hpool p hp_mem).symm.trans hpt) hrel

theorem c1_witness :
    (∀ p ∈ [("a", "0cc1")], p.2 = hash_cpu_seed 1 4 p.1) ∧
    (∀ t ∈ ["0cc1"], t ∈ ([("a", "0cc1")].map Prod.snd)) ∧
    ∃ seeds used',
      hcGetCpuSeedsForTargets [("a", "0cc1")] ["0cc1"] [] =
        some (seeds, used') ∧
      List.Forall₂ (fun s t => hash_cpu_seed 1 4 s = t) seeds ["0cc1"] :=
  ⟨by decide, by decide,
    c1_hashcacher_cpu_roundtrip 1 4 [("a", "0cc1")] ["0cc1"] []
      (by decide) (by decide)⟩

/-- C7 counterexample: `HashCacher.get_cpu_seeds_for_targets` raises
`ValueError` (modelled as `none`) when a requested target has no backing
seed in the pool, rather than recovering. -/
theorem c7_hashcacher_raises_on_unbacked_target :
    hcGetCpuSeedsForTargets [("s1", "bbbb")] ["aaaa"] [] = none := by
  decide

/-- C7 (amended): the request path's CPU issuance,
`get_cpu_seeds_for_targets` of server.py, recovers locally by declining to
emit a seed -- a target with no backing seed in the pool, or all of whose
seeds are already reserved, contributes nothing and no error; by
`c7_hashcacher_raises_on_unbacked_target`, `HashCacher`'s variant of the
operation instead raises `ValueError` for a target with no backing seed
(it does still recover, by reuse, when a backed target's seeds are merely
all reserved). -/
theorem c7_server_cpu_issuance_declines (pool : List (String × String))
    (t : String) (ts used : List String)
    (h : t ∉ pool.map Prod.snd ∨ ∀ p ∈ pool, p.2 = t → p.1 ∈ used) :
    srvGetCpuSeedsForTargets pool (t :: ts) used =
      srvGetCpuSeedsForTargets pool ts used := by
  by_cases hc : (pool.map Prod.snd).contains t = true
  · cases h with
    | inl h => exact absurd (by simpa using hc) h
    | inr h =>
      have hfind :
          pool.find? (fun p => p.2 == t && !(used.contains p.1)) = none := by
        rw [List.find?_eq_none]
        intro p hp
        simp only [Bool.and_eq_true, beq_iff_eq, Bool.not_eq_true', not_and]
        intro hpt hcontains
        have hmem : p.1 ∈ used := h p hp hpt
        simp [hmem] at hcontains
      exact srvGet_cons_exhausted pool t ts used hc hfind
  · exact srvGet_cons_missing pool t ts used (by simpa using hc)

theorem StrictStep.nil (u : List String) : StrictStep [] u u :=
  ⟨List.nodup_nil, by simp, by simp, fun _ h => h⟩

theorem StrictStep.comp (o1 o2 u u' u'' : List String)
    (h1 : StrictStep o1 u u') (h2 : StrictStep o2 u' u'') :
    StrictStep (o1 ++ o2) u u'' := by
  obtain ⟨n1, f1, m1, g1⟩ := h1
  obtain ⟨n2, f2, m2, g2⟩ := h2
  refine ⟨?_, ?_, ?_, fun s hs => g2 s (g1 s hs)⟩
  · rw [List.nodup_append]
    exact ⟨n1, n2, fun s hs1 hs2 => f2 s hs2 (m1 s hs1)⟩
  · intro s hs
    rcases List.mem_append.mp hs with hmem | hmem
    · exact f1 s hmem
    · exact fun hu => f2 s hmem (g1 s hu)
  · intro s hs
    rcases List.mem_append.mp hs with hmem | hmem
    · exact g2 s (m1 s hmem)
    · exact m2 s hmem

theorem srvGetCpuSeeds_strict (pool : List (String × String)) :
    ∀ (targets used : List String),
      StrictStep (srvGetCpuSeedsForTargets pool targets used).1 used
        (srvGetCpuSeedsForTargets pool targets used).2 := by
  intro targets
  induction targets with
  | nil => intro used; exact StrictStep.nil used
  | cons t ts ih =>
    intro used
    by_cases hc : (pool.map Prod.snd).contains t = true
    · cases hfind : pool.find? (fun p => p.2 == t && !(used.contains p.1)) with
      | some p =>
        rw [srvGet_cons_found pool t ts used p hc hfind]
        have hp_pred := List.find?_some hfind
        have hp_notused : p.1 ∉ used := by
          simp only [Bool.and_eq_true, Bool.not_eq_true'] at hp_pred
          simpa using hp_pred.2
        obtain ⟨n1, f1, m1, g1⟩ := ih (p.1 :: used)
        refine ⟨?_, ?_, ?_, ?_⟩
        · exact List.nodup_cons.mpr ⟨fun hmem => f1 p.1 hmem (by simp), n1⟩
        · intro s hs
          rcases List.mem_cons.mp hs with rfl | hs
          · exact hp_notused
          · exact fun hu => f1 s hs (by simp [hu])
        · intro s hs
          rcases List.mem_cons.mp hs with rfl | hs
          · exact g1 p.1 (by simp)
          · exact m1 s hs
        · intro s hs
          exact g1 s (by simp [hs])
      | none =>
        rw [srvGet_cons_exhausted pool t ts used hc hfind]
        exact ih used
    · rw [srvGet_cons_missing pool t ts used (by simpa using hc)]
      exact ih used

theorem srvBuildQuad_found (pool : List (String × Char)) (c : Char)
    (cs : List Char) (used : List String) (p : String × Char)
    (hf : pool.find? (fun p => p.2 == c && !(used.contains p.1)) = some p) :
    srvBuildQuad pool (c :: cs) used =
      (p.1 :: (srvBuildQuad pool cs (p.1 :: used)).1,
        (srvBuildQuad pool cs (p.1 :: used)).2.1,
        (srvBuildQuad pool cs (p.1 :: used)).2.2) := by
  rw [srvBuildQuad, hf]

theorem srvBuildQuad_fail (pool : List (String × Char)) (c : Char)
    (cs : List Char) (used : List String)
    (hf : pool.find? (fun p => p.2 == c && !(used.contains p.1)) = none) :
    srvBuildQuad pool (c :: cs) used = ([], used, false) := by
  rw [srvBuildQuad, hf]

theorem srvBuildQuad_strict (pool : List (String × Char)) :
    ∀ (cs : List Char) (used : List String),
      StrictStep (srvBuildQuad pool cs used).1 used
        (srvBuildQuad pool cs used).2.1 := by
  intro cs
  induction cs with
  | nil => intro used; exact StrictStep.nil used
  | cons c cs ih =>
    intro used
    cases hfind : pool.find? (fun p => p.2 == c && !(used.contains p.1)) with
    | some p =>
      rw [srvBuildQuad_found pool c cs used p hfind]
      have hp_pred := List.find?_some hfind
      have hp_notused : p.1 ∉ used := by
        simp only [Bool.and_eq_true, Bool.not_eq_true'] at hp_pred
        simpa using hp_pred.2
      obtain ⟨n1, f1, m1, g1⟩ := ih (p.1 :: used)
      refine ⟨?_, ?_, ?_, ?_⟩
      · exact List.nodup_cons.mpr ⟨fun hmem => f1 p.1 hmem (by simp), n1⟩
      · intro s hs
        rcases List.mem_cons.mp hs with rfl | hs
        · exact hp_notused
        · exact fun hu => f1 s hs (by simp [hu])
      · intro s hs
        rcases List.mem_cons.mp hs with rfl | hs
        · exact g1 p.1 (by simp)
        · exact m1 s hs
      · intro s hs
        exact g1 s (by simp [hs])
    | none =>
      rw [srvBuildQuad_fail pool c cs used hfind]
      exact StrictStep.nil used

theorem srvGetCore_cons (pool : List (String × Char)) (t : String)
    (ts used : List String) :
    srvGetCoreSeedsForTargets pool (t :: ts) used =
      (if (srvBuildQuad pool (strTake 4 (ljustZero 4 t)).data used).1.length == 4
       then
         ((srvBuildQuad pool (strTake 4 (ljustZero 4 t)).data used).1 ::
             (srvGetCoreSeedsForTargets pool ts
               (srvBuildQuad pool (strTake 4 (ljustZero 4 t)).data used).2.1).1,
           (srvGetCoreSeedsForTargets pool ts
             (srvBuildQuad pool (strTake 4 (ljustZero 4 t)).data used).2.1).2)
       else
         srvGetCoreSeedsForTargets pool ts
           (srvBuildQuad pool (strTake 4 (ljustZero 4 t)).data used).2.1) :=
  rfl

theorem srvGetCoreSeeds_strict (pool : List (String × Char)) :
    ∀ (targets used : List String),
      StrictStep (srvGetCoreSeedsForTargets pool targets used).1.flatten used
        (srvGetCoreSeedsForTargets pool targets used).2 := by
  intro targets
  induction targets with
  | nil => intro used; exact StrictStep.nil used
  | cons t ts ih =>
    intro used
    rw [srvGetCore_cons]
    have hq := srvBuildQuad_strict pool (strTake 4 (ljustZero 4 t)).data used
    by_cases hlen :
        ((srvBuildQuad pool (strTake 4 (ljustZero 4 t)).data used).1.length == 4) = true
    · rw [if_pos hlen]
      simp only [List.flatten_cons]
      exact StrictStep.comp _ _ _ _ _ hq (ih _)
    · rw [if_neg (by simpa using hlen)]
      have hnil : StrictStep []
          used (srvBuildQuad pool (strTake 4 (ljustZero 4 t)).data used).2.1 :=
        ⟨List.nodup_nil, by simp, by simp, hq.2.2.2⟩
      have := StrictStep.comp _ _ _ _ _ hnil (ih
        (srvBuildQuad pool (strTake 4 (ljustZero 4 t)).data used).2.1)
      simpa using this

theorem srvCpuTrace_strict (pool : List (String × String)) :
    ∀ (calls : List (List String)) (used : List String),
      StrictStep (srvCpuTrace pool calls used).1.flatten used
        (srvCpuTrace pool calls used).2 := by
  intro calls
  induction calls with
  | nil => intro used; exact StrictStep.nil used
  | cons call calls ih =>
    intro used
    have h1 : (srvCpuTrace pool (call :: calls) used).1.flatten =
        (srvGetCpuSeedsForTargets pool call used).1 ++
          (srvCpuTrace pool calls
            (srvGetCpuSeedsForTargets pool call used).2).1.flatten := rfl
    have h2 : (srvCpuTrace pool (call :: calls) used).2 =
        (srvCpuTrace pool calls
          (srvGetCpuSeedsForTargets pool call used).2).2 := rfl
    rw [h1, h2]
    exact StrictStep.comp _ _ _ _ _ (srvGetCpuSeeds_strict pool call used)
      (ih _)

theorem srvCoreTrace_strict (pool : List (String × Char)) :
    ∀ (calls : List (List String)) (used : List String),
      StrictStep (srvCoreTrace pool calls used).1.flatten.flatten used
        (srvCoreTrace pool calls used).2 := by
  intro calls
  induction calls with
  | nil => intro used; exact StrictStep.nil used
  | cons call calls ih =>
    intro used
    have h1 : (srvCoreTrace pool (call :: calls) used).1.flatten.flatten =
        (srvGetCoreSeedsForTargets pool call used).1.flatten ++
          (srvCoreTrace pool calls
            (srvGetCoreSeedsForTargets pool call used).2).1.flatten.flatten := by
      have : (srvCoreTrace pool (call :: calls) used).1 =
          (srvGetCoreSeedsForTargets pool call used).1 ::
            (srvCoreTrace pool calls
              (srvGetCoreSeedsForTargets pool call used).2).1 := rfl
      rw [this, List.flatten_cons, List.flatten_append]
    have h2 : (srvCoreTrace pool (call :: calls) used).2 =
        (srvCoreTrace pool calls
          (srvGetCoreSeedsForTargets pool call used).2).2 := rfl
    rw [h1, h2]
    exact StrictStep.comp _ _ _ _ _ (srvGetCoreSeeds_strict pool call used)
      (ih _)

/-- C3: under the strict reservation policy (the one server.py implements),
over any sequence of issuance calls sharing one reservation set -- and any
interleaving of concurrent calls whose check-then-mark section is atomic
executes as such a sequence -- no seed value is ever returned twice: the
seeds returned across a trace of CPU issuance calls are pairwise distinct,
each absent from the reservation set it was selected against, and each
contained in the final reservation set; likewise for core issuance
traces. -/
theorem c3_strict_reservation_no_reissue (cpuPool : List (String × String))
    (corePool : List (String × Char)) (cpuCalls coreCalls : List (List String))
    (usedCpu usedCore : List String) :
    ((srvCpuTrace cpuPool cpuCalls usedCpu).1.flatten.Nodup ∧
      ∀ s ∈ (srvCpuTrace cpuPool cpuCalls usedCpu).1.flatten,
        s ∉ usedCpu ∧ s ∈ (srvCpuTrace cpuPool cpuCalls usedCpu).2) ∧
    ((srvCoreTrace corePool coreCalls usedCore).1.flatten.flatten.Nodup ∧
      ∀ s ∈ (srvCoreTrace corePool coreCalls usedCore).1.flatten.flatten,
        s ∉ usedCore ∧ s ∈ (srvCoreTrace corePool coreCalls usedCore).2) := by
  obtain ⟨n1, f1, m1, _⟩ := srvCpuTrace_strict cpuPool cpuCalls usedCpu
  obtain ⟨n2, f2, m2, _⟩ := srvCoreTrace_strict corePool coreCalls usedCore
  exact ⟨⟨n1, fun s hs => ⟨f1 s hs, m1 s hs⟩⟩,
    ⟨n2, fun s hs => ⟨f2 s hs, m2 s hs⟩⟩⟩

theorem ljustZero_data (n : Nat) (t : String) :
    (ljustZero n t).data = t.data ++ List.replicate (n - t.length) '0' := by
  simp [ljustZero, String.data_append]

theorem strTake_ljust_length (len : Nat) (t : String) :
    (strTake len (ljustZero len t)).data.length = len := by
  simp only [strTake, ljustZero_data, List.length_take, List.length_append,
    List.length_replicate]
  have : t.length = t.data.length := rfl
  omega

theorem strTake_ljust_of_le (len : Nat) (t : String) (h : t.length ≤ len) :
    (strTake len (ljustZero len t)).data = (ljustZero len t).data := by
  simp only [strTake]
  apply List.take_of_length_le
  have h1 : t.length = t.data.length := rfl
  simp only [ljustZero_data, List.length_append, List.length_replicate]
  omega

theorem hcBuildHexSeeds_spec (iters : Nat)
    (buckets : List (Char × List String))
    (choice : Nat → List String → Option String)
    (hbuckets : ∀ b ∈ buckets, ∀ s ∈ b.2, hash_core_seed iters s = b.1)
    (hchoice : ∀ n l s, choice n l = some s → s ∈ l) :
    ∀ (chars : List Char) (k : Nat) (seeds : List String),
      hcBuildHexSeeds buckets choice chars k = some seeds →
      seeds.map (hash_core_seed iters) = chars := by
  intro chars
  induction chars with
  | nil =>
    intro k seeds h
    rw [hcBuildHexSeeds] at h
    injection h with h
    subst h
    rfl
  | cons c cs ih =>
    intro k seeds h
    rw [hcBuildHexSeeds] at h
    cases hfind : buckets.find? (fun b => b.1 == c) with
    | none => rw [hfind] at h; cases h
    | some b =>
      rw [hfind] at h
      dsimp only at h
      cases hch : choice k b.2 with
      | none => rw [hch] at h; cases h
      | some s =>
        rw [hch] at h
        dsimp only at h
        cases hrec : hcBuildHexSeeds buckets choice cs (k + 1) with
        | none => rw [hrec] at h; cases h
        | some rest =>
          rw [hrec, Option.map_some'] at h
          injection h with h
          subst h
          have hb_mem : b ∈ buckets := List.mem_of_find?_eq_some hfind
          have hb_pred := List.find?_some hfind
          have hbc : b.1 = c := by simpa using hb_pred
          have hs_mem : s ∈ b.2 := hchoice k b.2 s hch
          simp only [List.map_cons]
          rw [hbuckets b hb_mem s hs_mem, hbc, ih (k + 1) rest hrec]

/-- C4: whenever `HashCacher.get_core_seeds_for_targets` returns, each
requested target (of length at most the configured id length) received an
inner list of exactly the configured id length, and hashing each seed of
the list to its single character and concatenating the characters in order
reproduces the target right-padded with the filler '0' -- a member of the
hex alphabet the buckets are built over. -/
theorem c4_core_seed_reassembly (iters len : Nat)
    (buckets : List (Char × List String))
    (choice : Nat → List String → Option String)
    (targets : List String) (k : Nat) (lists : List (List String))
    (hbuckets : ∀ b ∈ buckets, ∀ s ∈ b.2, hash_core_seed iters s = b.1)
    (hchoice : ∀ n l s, choice n l = some s → s ∈ l)
    (hlen : ∀ t ∈ targets, t.length ≤ len)
    (hrun : hcGetCoreSeedsForTargets buckets len choice targets k =
      some lists) :
    List.Forall₂
      (fun t l => l.length = len ∧
        l.map (hash_core_seed iters) = (ljustZero len t).data)
      targets lists ∧
    '0' ∈ hexChars := by
  refine ⟨?_, by decide⟩
  induction targets generalizing k lists with
  | nil =>
    rw [hcGetCoreSeedsForTargets] at hrun
    injection hrun with hrun
    subst hrun
    exact List.Forall₂.nil
  | cons t ts ih =>
    rw [hcGetCoreSeedsForTargets] at hrun
    cases hhex :
        hcBuildHexSeeds buckets choice (strTake len (ljustZero len t)).data k with
    | none => rw [hhex] at hrun; cases hrun
    | some hexSeeds =>
      rw [hhex] at hrun
      dsimp only at hrun
      cases hrec : hcGetCoreSeedsForTargets buckets len choice ts (k + len) with
      | none => rw [hrec] at hrun; cases hrun
      | some ls =>
        rw [hrec] at hrun
        dsimp only at hrun
        have hmap := hcBuildHexSeeds_spec iters buckets choice hbuckets
          hchoice _ k hexSeeds hhex
        have hlen_hex : hexSeeds.length = len := by
          have hcong := congrArg List.length hmap
          simp only [List.length_map] at hcong
          rw [hcong, strTake_ljust_length]
        rw [if_pos (by simpa using hlen_hex)] at hrun
        injection hrun with hrun
        subst hrun
        refine List.Forall₂.cons ⟨hlen_hex, ?_⟩
          (ih (k + len) ls (fun x hx => hlen x (List.mem_cons.mpr (Or.inr hx)))
            hrec)
        rw [hmap, strTake_ljust_of_le len t (hlen t (by simp))]

theorem c4_witness :
    (∀ b ∈ [('0', ["a"])], ∀ s ∈ b.2, hash_core_seed 1 s = b.1) ∧
    (∀ t ∈ ["0"], t.length ≤ 1) ∧
    List.Forall₂
      (fun t l => l.length = 1 ∧
        l.map (hash_core_seed 1) = (ljustZero 1 t).data)
      ["0"] [["a"]] ∧
    '0' ∈ hexChars :=
  ⟨by decide, by decide,
    c4_core_seed_reassembly 1 1 [('0', ["a"])] (fun _ l => l.head?)
      ["0"] 0 [["a"]] (by decide)
      (fun _ l s h => List.mem_of_mem_head? h) (by decide) (by decide)⟩

theorem ensureCpuLoop_spec (len : Nat) (stream : Nat → String) :
    ∀ (fuel k remaining : Nat) (st st' : CacherState),
      ensureCpuLoop len stream fuel k remaining st = some st' →
      st'.core_seeds = st.core_seeds ∧
      st'.core_iterations = st.core_iterations ∧
      st'.cpu_iterations = st.cpu_iterations ∧
      st'.cpu_seeds.length = st.cpu_seeds.length + remaining ∧
      ∀ p ∈ st'.cpu_seeds, p ∈ st.cpu_seeds ∨
        p.2 = hash_cpu_seed st.cpu_iterations len p.1 := by
  intro fuel
  induction fuel with
  | zero =>
    intro k remaining st st' h
    cases remaining with
    | zero =>
      rw [ensureCpuLoop] at h
      injection h with h
      subst h
      exact ⟨rfl, rfl, rfl, rfl, fun p hp => Or.inl hp⟩
    | succ r => simp [ensureCpuLoop] at h
  | succ fuel ih =>
    intro k remaining st st' h
    cases remaining with
    | zero =>
      rw [ensureCpuLoop] at h
      injection h with h
      subst h
      exact ⟨rfl, rfl, rfl, rfl, fun p hp => Or.inl hp⟩
    | succ r =>
      rw [ensureCpuLoop] at h
      by_cases hc : (st.cpu_seeds.map Prod.fst).contains (stream k) = true
      · rw [if_pos hc] at h
        exact ih (k + 1) (r + 1) st st' h
      · rw [if_neg hc] at h
        obtain ⟨h1, h2, h3, h4, h5⟩ := ih (k + 1) r _ st' h
        refine ⟨h1, h2, h3, ?_, ?_⟩
        · simp only [List.length_append, List.length_cons,
            List.length_nil] at h4 ⊢
          omega
        · intro p hp
          rcases h5 p hp with hmem | hnew
          · rcases List.mem_append.mp hmem with hmem | hmem
            · exact Or.inl hmem
            · rcases List.mem_singleton.mp hmem with rfl
              exact Or.inr rfl
          · exact Or.inr hnew

/-- C8: invoking `ensure_cpu_seeds` with an iteration cost differing from
the stored one discards the CPU partition and regenerates it from scratch
under the new cost (every record of the resulting partition is freshly
hashed with the new cost and the partition reaches the requested size), the
stored `cpu_iterations` is updated to the new cost, and the core partition
(`core_seeds` and `core_iterations`) is left unchanged; no error is
surfaced (`none` only models the generation loop still running). -/
theorem c8_stale_cost_regeneration (len defaultCost : Nat)
    (stream : Nat → String) (fuel needed c : Nat) (st st' : CacherState)
    (hc : c ≠ st.cpu_iterations)
    (hrun : ensure_cpu_seeds len defaultCost stream fuel needed (some c) st =
      some st') :
    st'.core_seeds = st.core_seeds ∧
    st'.core_iterations = st.core_iterations ∧
    st'.cpu_iterations = c ∧
    st'.cpu_seeds.length = needed ∧
    ∀ p ∈ st'.cpu_seeds, p.2 = hash_cpu_seed c len p.1 := by
  rw [ensure_cpu_seeds] at hrun
  rw [if_pos hc] at hrun
  by_cases hz : needed = 0
  · subst hz
    rw [if_pos (Nat.zero_le _)] at hrun
    injection hrun with hrun
    subst hrun
    exact ⟨rfl, rfl, rfl, rfl, fun p hp => absurd hp (by simp)⟩
  · rw [if_neg (by simpa using hz)] at hrun
    obtain ⟨h1, h2, h3, h4, h5⟩ := ensureCpuLoop_spec len stream fuel 0
      (needed - 0) _ st' hrun
    refine ⟨h1, h2, h3, ?_, ?_⟩
    · simpa using h4
    · intro p hp
      rcases h5 p hp with hmem | hnew
      · exact absurd hmem (by simp)
      · exact hnew

theorem c8_witness :
    2 ≠ (⟨[], [('a', ["x"])], 5, 7⟩ : CacherState).cpu_iterations ∧
    ((⟨[("ab", "a93e")], [('a', ["x"])], 2, 7⟩ : CacherState).core_seeds =
        (⟨[], [('a', ["x"])], 5, 7⟩ : CacherState).core_seeds ∧
      (⟨[("ab", "a93e")], [('a', ["x"])], 2, 7⟩ :
          CacherState).core_iterations =
        (⟨[], [('a', ["x"])], 5, 7⟩ : CacherState).core_iterations ∧
      (⟨[("ab", "a93e")], [('a', ["x"])], 2, 7⟩ :
          CacherState).cpu_iterations = 2 ∧
      (⟨[("ab", "a93e")], [('a', ["x"])], 2, 7⟩ :
          CacherState).cpu_seeds.length = 1 ∧
      ∀ p ∈ (⟨[("ab", "a93e")], [('a', ["x"])], 2, 7⟩ :
          CacherState).cpu_seeds, p.2 = hash_cpu_seed 2 4 p.1) :=
  ⟨by decide,
    c8_stale_cost_regeneration 4 9 (fun _ => "ab") 1 1 2
      ⟨[], [('a', ["x"])], 5, 7⟩ ⟨[("ab", "a93e")], [('a', ["x"])], 2, 7⟩
      (by decide) (by decide)⟩

theorem length_wordsOver (alph : List Char) :
    ∀ n, (wordsOver alph n).length = alph.length ^ n := by
  intro n
  induction n with
  | zero => rfl
  | succ n ih =>
    rw [wordsOver, List.length_flatMap]
    simp only [Function.comp_def, List.length_map, ih, List.map_const',
      List.sum_replicate, smul_eq_mul, pow_succ]
    ring

theorem mem_wordsOver (alph : List Char) :
    ∀ (w : List Char), (∀ c ∈ w, c ∈ alph) → w ∈ wordsOver alph w.length := by
  intro w
  induction w with
  | nil => intro; simp [wordsOver]
  | cons c cs ih =>
    intro h
    simp only [List.length_cons, wordsOver, List.mem_flatMap]
    exact ⟨c, h c (by simp),
      List.mem_map.mpr ⟨cs, ih (fun x hx => h x (by simp [hx])), rfl⟩⟩

theorem nodup_words_length_le (alph : List Char) (L : Nat)
    (l : List (List Char)) (hnd : l.Nodup)
    (hmem : ∀ w ∈ l, w.length = L ∧ ∀ c ∈ w, c ∈ alph) :
    l.length ≤ alph.length ^ L := by
  have hsub : l.toFinset ⊆ (wordsOver alph L).toFinset := by
    intro w hw
    rw [List.mem_toFinset] at hw ⊢
    obtain ⟨hl, hc⟩ := hmem w hw
    have hmm := mem_wordsOver alph w hc
    rwa [hl] at hmm
  calc l.length = l.toFinset.card := (List.toFinset_card_of_nodup hnd).symm
    _ ≤ (wordsOver alph L).toFinset.card := Finset.card_le_card hsub
    _ ≤ (wordsOver alph L).length := List.toFinset_card_le _
    _ = alph.length ^ L := length_wordsOver alph L

theorem sampleId_length (len : Nat) (draw : Nat → Nat) (k : Nat) :
    (sampleId len draw k).length = len := by
  simp [sampleId]

theorem sampleId_mem (len : Nat) (draw : Nat → Nat) (k : Nat) :
    ∀ c ∈ sampleId len draw k, c ∈ idAlphabet := by
  intro c hc
  simp only [sampleId, List.mem_map] at hc
  obtain ⟨j, hj, rfl⟩ := hc
  have hlt : draw (len * k + j) % idAlphabet.length < idAlphabet.length :=
    Nat.mod_lt _ (by decide)
  rw [List.getD_eq_getElem _ _ hlt]
  exact List.getElem_mem hlt

theorem generatePageIdsLoop_some_spec (len : Nat) (draw : Nat → Nat)
    (count : Nat) :
    ∀ (fuel k : Nat) (acc ids : List (List Char)),
      acc.Nodup →
      (∀ w ∈ acc, w.length = len ∧ ∀ c ∈ w, c ∈ idAlphabet) →
      acc.length ≤ count →
      generatePageIdsLoop len draw count fuel k acc = some ids →
      ids.Nodup ∧ ids.length = count ∧
        ∀ w ∈ ids, w.length = len ∧ ∀ c ∈ w, c ∈ idAlphabet := by
  intro fuel
  induction fuel with
  | zero =>
    intro k acc ids hnd hw hle h
    rw [generatePageIdsLoop] at h
    by_cases hc : count ≤ acc.length
    · rw [if_pos hc] at h
      injection h with h
      subst h
      exact ⟨hnd, Nat.le_antisymm hle hc, hw⟩
    · rw [if_neg hc] at h
      cases h
  | succ fuel ih =>
    intro k acc ids hnd hw hle h
    rw [generatePageIdsLoop] at h
    by_cases hc : count ≤ acc.length
    · rw [if_pos hc] at h
      injection h with h
      subst h
      exact ⟨hnd, Nat.le_antisymm hle hc, hw⟩
    · rw [if_neg hc] at h
      dsimp only at h
      by_cases hmem : acc.contains (sampleId len draw k) = true
      · rw [if_pos hmem] at h
        exact ih (k + 1) acc ids hnd hw hle h
      · rw [if_neg hmem] at h
        have hnotmem : sampleId len draw k ∉ acc := by simpa using hmem
        refine ih (k + 1) (acc ++ [sampleId len draw k]) ids ?_ ?_ ?_ h
        · rw [List.nodup_append]
          refine ⟨hnd, List.nodup_singleton _, ?_⟩
          intro a ha hb
          rw [List.mem_singleton] at hb
          subst hb
          exact hnotmem ha
        · intro w hw'
          rcases List.mem_append.mp hw' with hw' | hw'
          · exact hw w hw'
          · rw [List.mem_singleton] at hw'
            subst hw'
            exact ⟨sampleId_length len draw k, sampleId_mem len draw k⟩
        · simp only [List.length_append, List.length_singleton]
          omega

theorem generatePageIdsLoop_stuck (len : Nat) (draw : Nat → Nat)
    (count : Nat) (hcount : idAlphabet.length ^ len < count) :
    ∀ (fuel k : Nat) (acc : List (List Char)),
      acc.Nodup →
      (∀ w ∈ acc, w.length = len ∧ ∀ c ∈ w, c ∈ idAlphabet) →
      generatePageIdsLoop len draw count fuel k acc = none := by
  intro fuel
  induction fuel with
  | zero =>
    intro k acc hnd hw
    rw [generatePageIdsLoop]
    rw [if_neg]
    have := nodup_words_length_le idAlphabet len acc hnd hw
    omega
  | succ fuel ih =>
    intro k acc hnd hw
    rw [generatePageIdsLoop]
    have hbound := nodup_words_length_le idAlphabet len acc hnd hw
    rw [if_neg (by omega)]
    dsimp only
    by_cases hmem : acc.contains (sampleId len draw k) = true
    · rw [if_pos hmem]
      exact ih (k + 1) acc hnd hw
    · rw [if_neg hmem]
      have hnotmem : sampleId len draw k ∉ acc := by simpa using hmem
      refine ih (k + 1) (acc ++ [sampleId len draw k]) ?_ ?_
      · rw [List.nodup_append]
        refine ⟨hnd, List.nodup_singleton _, ?_⟩
        intro a ha hb
        rw [List.mem_singleton] at hb
        subst hb
        exact hnotmem ha
      · intro w hw'
        rcases List.mem_append.mp hw' with hw' | hw'
        · exact hw w hw'
        · rw [List.mem_singleton] at hw'
          subst hw'
          exact ⟨sampleId_length len draw k, sampleId_mem len draw k⟩

/-- C9 counterexample: with identifier length 1 the id space has 36
elements; a request for 37 ids makes `generate_page_ids` keep sampling
forever instead of failing -- there is no `IdSpaceExhausted` outcome
anywhere in the code, and after 60 loop iterations the loop is still
running (`none`). -/
theorem c9_no_idspace_failure :
    generate_page_ids 1 (fun n => n) 60 37 = none :=
  generatePageIdsLoop_stuck 1 (fun n => n) 37 (by decide) 60 0 []
    List.nodup_nil (by simp)

/-- C9 (amended): the identifier generator does return `count` distinct
identifiers of the configured length over its 36-character alphabet when
it returns, but it performs no identifier-space check and never fails with
`IdSpaceExhausted` (no such outcome exists in the code): whenever the
identifier space `36 ^ length` is smaller than the requested count it
continues to sample forever -- the loop is still running when any fuel
bound runs out. -/
theorem c9_generator_no_space_check (len : Nat) (draw : Nat → Nat)
    (fuel count : Nat) :
    (∀ ids, generate_page_ids len draw fuel count = some ids →
      ids.Nodup ∧ ids.length = count ∧
        ∀ pid ∈ ids, pid.length = len ∧ ∀ ch ∈ pid, ch ∈ idAlphabet) ∧
    (36 ^ len < count → generate_page_ids len draw fuel count = none) := by
  constructor
  · intro ids h
    exact generatePageIdsLoop_some_spec len draw count fuel 0 [] ids
      List.nodup_nil (by simp) (Nat.zero_le _) h
  · intro hcount
    exact generatePageIdsLoop_stuck len draw count hcount fuel 0 []
      List.nodup_nil (by simp)

theorem c9_witness :
    36 ^ 1 < 37 ∧ generate_page_ids 1 (fun n => n + 1) 50 37 = none :=
  ⟨by decide,
    (c9_generator_no_space_check 1 (fun n => n + 1) 50 37).2 (by decide)⟩

theorem hexDigit_mem (n : Nat) : hexDigit n ∈ hexChars := by
  unfold hexDigit
  by_cases h : n < hexChars.length
  · rw [List.getD_eq_getElem _ _ h]
    exact List.getElem_mem h
  · rw [List.getD_eq_default]
    · decide
    · omega

theorem length_md5Bytes (msg : List Nat) : (md5Bytes msg).length = 16 := by
  simp [md5Bytes, wordLE]

theorem length_flatMap_byteHex (l : List Nat) :
    (l.flatMap byteHex).length = 2 * l.length := by
  induction l with
  | nil => rfl
  | cons b bs ih =>
    simp only [List.flatMap_cons, List.length_append, ih, byteHex,
      List.length_cons, List.length_nil]
    omega

theorem md5Hex_hexId (s : String) : HexId 32 (md5Hex s) := by
  constructor
  · show ((md5Bytes (strBytes s)).flatMap byteHex).length = 32
    rw [length_flatMap_byteHex, length_md5Bytes]
  · intro ch hch
    have hch' : ch ∈ (md5Bytes (strBytes s)).flatMap byteHex := hch
    rw [List.mem_flatMap] at hch'
    obtain ⟨b, _, hb⟩ := hch'
    rcases List.mem_cons.mp hb with rfl | hb
    · exact hexDigit_mem _
    · rcases List.mem_singleton.mp hb with rfl
      exact hexDigit_mem _

theorem hcacherHashChain_succ (j : Nat) (seed : String) :
    hcacherHashChain (j + 1) seed = md5Hex (hcacherHashChain j seed) := by
  unfold hcacherHashChain
  rw [List.range_succ, List.foldl_append]
  rfl

theorem serverHashChain_succ (j : Nat) (seed : String) :
    serverHashChain (j + 1) seed =
      md5Hex (serverHashChain j seed ++ "_" ++ toString j) := by
  unfold serverHashChain
  rw [List.range_succ, List.foldl_append]
  rfl

theorem strTake_hexId (len : Nat) (hlen : len ≤ 32) (s : String)
    (h : HexId 32 s) : HexId len (strTake len s) := by
  obtain ⟨h1, h2⟩ := h
  constructor
  · show (s.data.take len).length = len
    rw [List.length_take]
    have hdata : s.data.length = 32 := h1
    omega
  · intro ch hch
    exact h2 ch (List.mem_of_mem_take hch)

theorem hash_cpu_seed_hexId (iters len : Nat) (h1 : 1 ≤ iters)
    (hlen : len ≤ 32) (seed : String) :
    HexId len (hash_cpu_seed iters len seed) := by
  obtain ⟨j, rfl⟩ : ∃ j, iters = j + 1 := ⟨iters - 1, by omega⟩
  unfold hash_cpu_seed
  rw [hcacherHashChain_succ]
  exact strTake_hexId len hlen _ (md5Hex_hexId _)

theorem serverCpuPageId_hexId (iters len : Nat) (h1 : 1 ≤ iters)
    (hlen : len ≤ 32) (seed : String) :
    HexId len (serverCpuPageId iters len seed) := by
  obtain ⟨j, rfl⟩ : ∃ j, iters = j + 1 := ⟨iters - 1, by omega⟩
  unfold serverCpuPageId
  rw [serverHashChain_succ]
  exact strTake_hexId len hlen _ (md5Hex_hexId _)

theorem compute_cpu_seed_pools_hexId (iters len : Nat) (h1 : 1 ≤ iters)
    (hlen : len ≤ 32) (stream : Nat → String) :
    ∀ (budget needed k : Nat) (pool : List (String × String)),
      (∀ p ∈ pool, HexId len p.2) →
      ∀ p ∈ compute_cpu_seed_pools iters len stream budget needed k pool,
        HexId len p.2 := by
  intro budget
  induction budget with
  | zero =>
    intro needed k pool hp
    cases needed with
    | zero => rw [compute_cpu_seed_pools]; exact hp
    | succ n => simp only [compute_cpu_seed_pools]; exact hp
  | succ budget ih =>
    intro needed k pool hp
    cases needed with
    | zero => rw [compute_cpu_seed_pools]; exact hp
    | succ n =>
      rw [compute_cpu_seed_pools]
      by_cases hc : (pool.map Prod.fst).contains (stream k) = true
      · rw [if_pos hc]
        exact ih (n + 1) (k + 1) pool hp
      · rw [if_neg hc]
        refine ih n (k + 1) _ ?_
        intro p hpmem
        rcases List.mem_append.mp hpmem with hm | hm
        · exact hp p hm
        · rcases List.mem_singleton.mp hm with rfl
          exact serverCpuPageId_hexId iters len h1 hlen _

/-- C10 (implicit): with at least one hash iteration and an id length of at
most the 32-character digest, every target value a pool insertion produces
is a string of exactly the configured id length over the lowercase hex
alphabet 0-9a-f (a prefix of an MD5 hexdigest): this holds for the hash of
any seed under both implementations, is preserved by every insertion of
`ensure_cpu_seeds`'s generation loop, and is preserved by
`compute_cpu_seed_pools`. -/
theorem c10_cpu_pool_values_hex (iters len : Nat) (stream : Nat → String)
    (h1 : 1 ≤ iters) (hlen : len ≤ 32) :
    (∀ seed, HexId len (hash_cpu_seed iters len seed)) ∧
    (∀ seed, HexId len (serverCpuPageId iters len seed)) ∧
    (∀ (fuel k remaining : Nat) (st st' : CacherState),
      st.cpu_iterations = iters →
      (∀ p ∈ st.cpu_seeds, HexId len p.2) →
      ensureCpuLoop len stream fuel k remaining st = some st' →
      ∀ p ∈ st'.cpu_seeds, HexId len p.2) ∧
    (∀ (budget needed k : Nat) (pool : List (String × String)),
      (∀ p ∈ pool, HexId len p.2) →
      ∀ p ∈ compute_cpu_seed_pools iters len stream budget needed k pool,
        HexId len p.2) := by
  refine ⟨fun seed => hash_cpu_seed_hexId iters len h1 hlen seed,
    fun seed => serverCpuPageId_hexId iters len h1 hlen seed, ?_,
    compute_cpu_seed_pools_hexId iters len h1 hlen stream⟩
  intro fuel k remaining st st' hiter hp hrun p hpmem
  obtain ⟨_, _, _, _, h5⟩ :=
    ensureCpuLoop_spec len stream fuel k remaining st st' hrun
  rcases h5 p hpmem with hm | hm
  · exact hp p hm
  · rw [hm, hiter]
    exact hash_cpu_seed_hexId iters len h1 hlen p.1

theorem c10_witness :
    1 ≤ 1 ∧ 4 ≤ 32 ∧ HexId 4 (hash_cpu_seed 1 4 "a") :=
  ⟨by decide, by decide,
    (c10_cpu_pool_values_hex 1 4 (fun _ => "a") (by decide) (by decide)).1
      "a"⟩

theorem addLink_subset (g : String → List String) (src tgt : String) :
    ∀ p q, q ∈ g p → q ∈ addLink g src tgt p := by
  intro p q hq
  unfold addLink
  by_cases h : p = src
  · rw [if_pos h]
    exact List.mem_append.mpr (Or.inl hq)
  · rw [if_neg h]
    exact hq

theorem reach_mono (g g' : String → List String)
    (h : ∀ p q, q ∈ g p → q ∈ g' p) (root p : String) :
    ReachableFrom g root p → ReachableFrom g' root p :=
  Relation.ReflTransGen.mono (fun a b hb => h a b hb)

theorem addLink_no_selfloop (g : String → List String) (src tgt : String)
    (hself : ∀ p, p ∉ g p) (hne : src ≠ tgt) :
    ∀ p, p ∉ addLink g src tgt p := by
  intro p
  unfold addLink
  by_cases h : p = src
  · rw [if_pos h]
    subst h
    intro hmem
    rcases List.mem_append.mp hmem with hm | hm
    · exact hself p hm
    · rcases List.mem_singleton.mp hm with rfl
      exact hne rfl
  · rw [if_neg h]
    exact hself p

theorem addLink_nodup (g : String → List String) (src tgt : String)
    (hdup : ∀ p, (g p).Nodup) (hmem : tgt ∉ g src) :
    ∀ p, (addLink g src tgt p).Nodup := by
  intro p
  unfold addLink
  by_cases h : p = src
  · rw [if_pos h, h]
    rw [List.nodup_append]
    exact ⟨hdup src, List.nodup_singleton _, by
      intro a ha hb
      rcases List.mem_singleton.mp hb with rfl
      exact hmem ha⟩
  · rw [if_neg h]
    exact hdup p

theorem edgeCount_nil_fn (pages : List String) :
    edgeCount (fun _ => []) pages = 0 := by
  unfold edgeCount
  simp

theorem edgeCount_addLink (g : String → List String) (src tgt : String) :
    ∀ (pages : List String), pages.Nodup → src ∈ pages →
      edgeCount (addLink g src tgt) pages = edgeCount g pages + 1 := by
  intro pages
  induction pages with
  | nil =>
    intro _ h
    cases h
  | cons p ps ih =>
    intro hnd hmem
    rcases List.mem_cons.mp hmem with rfl | hmem
    · have hps : src ∉ ps := (List.nodup_cons.mp hnd).1
      unfold edgeCount
      simp only [List.map_cons, List.sum_cons]
      have h1 : (addLink g src tgt src).length = (g src).length + 1 := by
        unfold addLink
        rw [if_pos rfl]
        simp
      have h2 : ps.map (fun q => (addLink g src tgt q).length) =
          ps.map (fun q => (g q).length) := by
        apply List.map_congr_left
        intro x hx
        unfold addLink
        rw [if_neg]
        intro hx'
        subst hx'
        exact hps hx
      rw [h1, h2]
      omega
    · have hphead : p ≠ src := by
        intro h'
        subst h'
        exact (List.nodup_cons.mp hnd).1 hmem
      unfold edgeCount
      simp only [List.map_cons, List.sum_cons]
      have h1 : (addLink g src tgt p).length = (g p).length := by
        unfold addLink
        rw [if_neg hphead]
      have h2 := ih (List.nodup_cons.mp hnd).2 hmem
      unfold edgeCount at h2
      rw [h1, h2]
      omega

theorem tree_src_mem (tree : List String) (i : Nat) (htree : tree ≠ []) :
    tree.getD (i % tree.length) "" ∈ tree := by
  have hlen : 0 < tree.length := List.length_pos.mpr htree
  have hlt : i % tree.length < tree.length := Nat.mod_lt _ hlen
  rw [List.getD_eq_getElem _ _ hlt]
  exact List.getElem_mem hlt

theorem treePhase_spec (oracle : Nat → Nat) :
    ∀ (rest : List String) (k : Nat) (tree : List String)
      (g : String → List String), tree ≠ [] →
      (treePhase oracle k tree rest g).1 = tree ++ rest ∧
      (∀ p q, q ∈ g p → q ∈ (treePhase oracle k tree rest g).2 p) ∧
      ∀ root, (∀ p ∈ tree, ReachableFrom g root p) →
        ∀ p ∈ (treePhase oracle k tree rest g).1,
          ReachableFrom (treePhase oracle k tree rest g).2 root p := by
  intro rest
  induction rest with
  | nil =>
    intro k tree g htree
    refine ⟨by simp [treePhase], fun p q h => h, ?_⟩
    intro root hreach p hp
    rw [treePhase] at hp
    exact hreach p (by simpa using hp)
  | cons x xs ih =>
    intro k tree g htree
    have hsrcmem : tree.getD (oracle k % tree.length) "" ∈ tree :=
      tree_src_mem tree (oracle k) htree
    obtain ⟨ih1, ih2, ih3⟩ := ih (k + 1) (tree ++ [x])
      (addLink g (tree.getD (oracle k % tree.length) "") x) (by simp)
    refine ⟨?_, ?_, ?_⟩
    · rw [treePhase, ih1, List.append_assoc]
      rfl
    · intro p q hq
      rw [treePhase]
      exact ih2 p q (addLink_subset g _ x p q hq)
    · intro root hreach p hp
      rw [treePhase] at hp ⊢
      apply ih3 root ?_ p hp
      intro p' hp'
      rcases List.mem_append.mp hp' with hm | hm
      · exact reach_mono g _ (addLink_subset g _ x) root p' (hreach p' hm)
      · rcases List.mem_singleton.mp hm with rfl
        have hsrc_reach : ReachableFrom
            (addLink g (tree.getD (oracle k % tree.length) "") p') root
            (tree.getD (oracle k % tree.length) "") :=
          reach_mono g _ (addLink_subset g _ p') root _
            (hreach _ hsrcmem)
        refine Relation.ReflTransGen.tail hsrc_reach ?_
        show p' ∈ addLink g (tree.getD (oracle k % tree.length) "") p'
          (tree.getD (oracle k % tree.length) "")
        unfold addLink
        rw [if_pos rfl]
        simp

theorem treePhase_edges (oracle : Nat → Nat) (pages : List String)
    (hnd : pages.Nodup) :
    ∀ (rest : List String) (k : Nat) (tree : List String)
      (g : String → List String), tree ≠ [] →
      (∀ p ∈ tree, p ∈ pages) → (∀ p ∈ rest, p ∈ pages) →
      edgeCount (treePhase oracle k tree rest g).2 pages =
        edgeCount g pages + rest.length := by
  intro rest
  induction rest with
  | nil =>
    intro k tree g _ _ _
    rw [treePhase]
    simp
  | cons x xs ih =>
    intro k tree g htree htreemem hrestmem
    rw [treePhase]
    have hsrcmem : tree.getD (oracle k % tree.length) "" ∈ tree :=
      tree_src_mem tree (oracle k) htree
    rw [ih (k + 1) (tree ++ [x]) _ (by simp) ?_ ?_]
    · rw [edgeCount_addLink g _ x pages hnd (htreemem _ hsrcmem)]
      simp only [List.length_cons]
      omega
    · intro p hp
      rcases List.mem_append.mp hp with hm | hm
      · exact htreemem p hm
      · rcases List.mem_singleton.mp hm with rfl
        exact hrestmem p (by simp)
    · intro p hp
      exact hrestmem p (by simp [hp])

theorem build_tree_spec (oracle : Nat → Nat) (pages : List String)
    (hne : pages ≠ []) :
    (build_tree oracle pages).1 = pages ∧
    ∀ p ∈ pages,
      ReachableFrom (build_tree oracle pages).2 (pages.headD "") p := by
  cases pages with
  | nil => cases hne rfl
  | cons root rest =>
    obtain ⟨h1, _, h3⟩ :=
      treePhase_spec oracle rest 0 [root] (fun _ => []) (by simp)
    refine ⟨by simpa [build_tree] using h1, ?_⟩
    intro p hp
    have hroot : ∀ q ∈ [root], ReachableFrom (fun _ => []) root q := by
      intro q hq
      rcases List.mem_singleton.mp hq with rfl
      exact Relation.ReflTransGen.refl
    have hmem : p ∈ (treePhase oracle 0 [root] rest (fun _ => [])).1 := by
      rw [h1]
      simpa using hp
    exact h3 root hroot p hmem

theorem densify_subset (pages : List String) (oracle : Nat → Nat × Nat) :
    ∀ (budget need k : Nat) (g : String → List String) (p q : String),
      q ∈ g p → q ∈ (densify pages oracle budget need k g).1 p := by
  intro budget
  induction budget with
  | zero =>
    intro need k g p q hq
    cases need with
    | zero => rw [densify]; exact hq
    | succ n => simp only [densify]; exact hq
  | succ budget ih =>
    intro need k g p q hq
    cases need with
    | zero => rw [densify]; exact hq
    | succ n =>
      rw [densify]
      dsimp only
      by_cases hcond : (pages.getD ((oracle k).1 % pages.length) "" !=
          pages.getD ((oracle k).2 % pages.length) "" &&
          !((g (pages.getD ((oracle k).1 % pages.length) "")).contains
            (pages.getD ((oracle k).2 % pages.length) ""))) = true
      · rw [if_pos hcond]
        exact ih n (k + 1) _ p q (addLink_subset g _ _ p q hq)
      · rw [if_neg hcond]
        exact ih (n + 1) (k + 1) g p q hq

theorem densify_invariants (pages : List String) (oracle : Nat → Nat × Nat)
    (hne : pages ≠ []) (hnd : pages.Nodup) :
    ∀ (budget need k : Nat) (g : String → List String),
      (∀ p, p ∉ g p) → (∀ p, (g p).Nodup) →
      (∀ p, p ∉ (densify pages oracle budget need k g).1 p) ∧
      (∀ p, ((densify pages oracle budget need k g).1 p).Nodup) ∧
      (densify pages oracle budget need k g).2.1 ≤ need ∧
      (densify pages oracle budget need k g).2.2 ≤ budget ∧
      edgeCount (densify pages oracle budget need k g).1 pages =
        edgeCount g pages + (densify pages oracle budget need k g).2.1 := by
  intro budget
  induction budget with
  | zero =>
    intro need k g hself hdup
    cases need with
    | zero =>
      exact ⟨hself, hdup, Nat.le_refl _, Nat.le_refl _, by simp [densify]⟩
    | succ n =>
      exact ⟨hself, hdup, Nat.zero_le _, Nat.le_refl _, by simp [densify]⟩
  | succ budget ih =>
    intro need k g hself hdup
    cases need with
    | zero =>
      exact ⟨hself, hdup, Nat.le_refl _, Nat.zero_le _, by simp [densify]⟩
    | succ n =>
      rw [densify]
      dsimp only
      by_cases hcond : (pages.getD ((oracle k).1 % pages.length) "" !=
          pages.getD ((oracle k).2 % pages.length) "" &&
          !((g (pages.getD ((oracle k).1 % pages.length) "")).contains
            (pages.getD ((oracle k).2 % pages.length) ""))) = true
      · rw [if_pos hcond]
        dsimp only
        have hparts := (Bool.and_eq_true _ _).mp hcond
        have hneq : pages.getD ((oracle k).1 % pages.length) "" ≠
            pages.getD ((oracle k).2 % pages.length) "" := by
          simpa using hparts.1
        have hnotin : pages.getD ((oracle k).2 % pages.length) "" ∉
            g (pages.getD ((oracle k).1 % pages.length) "") := by
          have := hparts.2
          simp only [Bool.not_eq_true'] at this
          simpa using this
        obtain ⟨i1, i2, i3, i4, i5⟩ := ih n (k + 1)
          (addLink g (pages.getD ((oracle k).1 % pages.length) "")
            (pages.getD ((oracle k).2 % pages.length) ""))
          (addLink_no_selfloop g _ _ hself hneq)
          (addLink_nodup g _ _ hdup hnotin)
        have hsrcpages : pages.getD ((oracle k).1 % pages.length) "" ∈ pages :=
          tree_src_mem pages ((oracle k).1) hne
        have hedge := edgeCount_addLink g
          (pages.getD ((oracle k).1 % pages.length) "")
          (pages.getD ((oracle k).2 % pages.length) "") pages hnd hsrcpages
        refine ⟨i1, i2, by omega, by omega, ?_⟩
        rw [i5, hedge]
        omega
      · rw [if_neg hcond]
        dsimp only
        obtain ⟨i1, i2, i3, i4, i5⟩ := ih (n + 1) (k + 1) g hself hdup
        exact ⟨i1, i2, i3, by omega, i5⟩

/-- C5: for every duplicate-free vertex set with at least 2 vertices (the
proof is uniform in the size, covering 2 up to 10,000 and beyond) and any
random choices, after `build_graph` completes every vertex is reachable
from the first page along the outgoing link lists -- the set a
breadth-first traversal from the root visits is the whole vertex set -- and
the tree phase alone contributes exactly (number of vertices - 1) edges. -/
theorem c5_connectivity_and_tree_edges (oracle1 : Nat → Nat)
    (oracle2 : Nat → Nat × Nat) (need budget : Nat) (pages : List String)
    (hnd : pages.Nodup) (h2 : 2 ≤ pages.length) :
    (∀ p ∈ pages,
      ReachableFrom (build_graph oracle1 oracle2 need budget pages)
        (pages.headD "") p) ∧
    edgeCount (build_tree oracle1 pages).2 pages = pages.length - 1 := by
  have hne : pages ≠ [] := by
    intro h
    subst h
    simp at h2
  obtain ⟨h1, hreach⟩ := build_tree_spec oracle1 pages hne
  constructor
  · intro p hp
    have hr := hreach p hp
    unfold build_graph
    exact reach_mono _ _
      (fun a b hb => densify_subset pages oracle2 budget need 0 _ a b hb)
      _ p hr
  · cases pages with
    | nil => cases hne rfl
    | cons root rest =>
      have hedges := treePhase_edges oracle1 (root :: rest) hnd rest 0 [root]
        (fun _ => []) (by simp)
        (fun p hp => List.mem_cons.mpr (Or.inl (by simpa using hp)))
        (fun p hp => List.mem_cons.mpr (Or.inr hp))
      have hb : (build_tree oracle1 (root :: rest)).2 =
          (treePhase oracle1 0 [root] rest (fun _ => [])).2 := rfl
      rw [hb, hedges, edgeCount_nil_fn]
      simp

theorem c5_witness :
    (["aa", "bb"] : List String).Nodup ∧
    2 ≤ (["aa", "bb"] : List String).length ∧
    ((∀ p ∈ ["aa", "bb"],
        ReachableFrom
          (build_graph (fun _ => 0) (fun j => (j, j + 1)) 1 3 ["aa", "bb"])
          ((["aa", "bb"] : List String).headD "") p) ∧
      edgeCount (build_tree (fun _ => 0) ["aa", "bb"]).2 ["aa", "bb"] =
        (["aa", "bb"] : List String).length - 1) :=
  ⟨by decide, by decide,
    c5_connectivity_and_tree_edges (fun _ => 0) (fun j => (j, j + 1)) 1 3
      ["aa", "bb"] (by decide) (by decide)⟩

/-- C6: throughout and after densification, starting from a self-loop-free,
duplicate-free link table with the tree phase's (vertices - 1) edges, the
final table has no self-loop and no duplicate target in any source's list,
the phase consumes at most the configured attempt budget of draws and
never raises (the embedding is a total function), and the total edge count
lies between (vertices - 1) and (vertices - 1) plus the requested number
of additional edges -- a sparser graph, not an error, on budget
exhaustion. -/
theorem c6_densification_invariants (pages : List String)
    (oracle : Nat → Nat × Nat) (budget need k : Nat)
    (g : String → List String) (hne : pages ≠ []) (hnd : pages.Nodup)
    (hself : ∀ p, p ∉ g p) (hdup : ∀ p, (g p).Nodup)
    (htree : edgeCount g pages = pages.length - 1) :
    (∀ p, p ∉ (densify pages oracle budget need k g).1 p) ∧
    (∀ p, ((densify pages oracle budget need k g).1 p).Nodup) ∧
    (densify pages oracle budget need k g).2.2 ≤ budget ∧
    pages.length - 1 ≤
      edgeCount (densify pages oracle budget need k g).1 pages ∧
    edgeCount (densify pages oracle budget need k g).1 pages ≤
      pages.length - 1 + need := by
  obtain ⟨i1, i2, i3, i4, i5⟩ :=
    densify_invariants pages oracle hne hnd budget need k g hself hdup
  exact ⟨i1, i2, i4, by omega, by omega⟩

theorem c6_witness :
    (["aa"] : List String) ≠ [] ∧ (["aa"] : List String).Nodup ∧
    edgeCount (fun _ => []) ["aa"] = (["aa"] : List String).length - 1 ∧
    ((∀ p, p ∉ (densify ["aa"] (fun j => (j, j + 1)) 3 1 0
        (fun _ => [])).1 p) ∧
      (∀ p, ((densify ["aa"] (fun j => (j, j + 1)) 3 1 0
        (fun _ => [])).1 p).Nodup) ∧
      (densify ["aa"] (fun j => (j, j + 1)) 3 1 0 (fun _ => [])).2.2 ≤ 3 ∧
      (["aa"] : List String).length - 1 ≤
        edgeCount (densify ["aa"] (fun j => (j, j + 1)) 3 1 0
          (fun _ => [])).1 ["aa"] ∧
      edgeCount (densify ["aa"] (fun j => (j, j + 1)) 3 1 0
        (fun _ => [])).1 ["aa"] ≤ (["aa"] : List String).length - 1 + 1) :=
  ⟨by decide, by decide, by decide,
    c6_densification_invariants ["aa"] (fun j => (j, j + 1)) 3 1 0
      (fun _ => []) (by decide) (by decide) (fun p => List.not_mem_nil p)
      (fun _ => List.nodup_nil) (by decide)⟩

theorem c7_witness :
    ("aaaa" ∉ [("s1", "bbbb")].map Prod.snd ∨
      ∀ p ∈ [("s1", "bbbb")], p.2 = "aaaa" → p.1 ∈ ([] : List String)) ∧
    srvGetCpuSeedsForTargets [("s1", "bbbb")] ["aaaa", "bbbb"] [] =
      srvGetCpuSeedsForTargets [("s1", "bbbb")] ["bbbb"] [] :=
  ⟨Or.inl (by decide),
    c7_server_cpu_issuance_declines [("s1", "bbbb")] "aaaa" ["bbbb"] []
      (Or.inl (by decide))⟩

end WebGraph
